import Mathlib

/-!
Verification of the artifact-capture-and-composition pipeline
(`scripts/make_montage.py`, `scripts/run_and_save.py`, `scripts/run_all.py`,
`scripts/organize_outputs.py`).

The Python sources are shallowly embedded below: machine integers become
`Nat`/`Int`, PIL canvases become a `Canvas` record of geometry and drawn
labels, matplotlib figures become `Fig` records, and the filesystem tree
handled by the output reorganizer becomes the mutual inductive
`FTree`/`DirList`.  Fallible code returns `Except`/`Option`.
-/

/-! ## Slugger (`_slug` in run_and_save.py, `slug` in organize_outputs.py)

The two copies are textually identical:
`s = (s or "misc").strip().lower().replace(" ", "-")` followed by
`re.sub(r"[^a-z0-9_\-]+", "", s)`.
-/

/-- Python `str.isspace`/`strip` whitespace, restricted to the one-byte
range that the repository's labels use (ASCII whitespace plus the C1
separators and NEL that CPython also strips). -/
def isPySpace (c : Char) : Bool :=
  c.toNat = 32 || c.toNat = 9 || c.toNat = 10 || c.toNat = 13 || c.toNat = 11 ||
  c.toNat = 12 || (28 ≤ c.toNat && c.toNat ≤ 31) || c.toNat = 133

/-- Characters kept by the regex `[^a-z0-9_\-]+` substitution:
`a`-`z`, `0`-`9`, `_`, `-`. -/
def isSlugChar (c : Char) : Bool :=
  (97 ≤ c.toNat && c.toNat ≤ 122) || (48 ≤ c.toNat && c.toNat ≤ 57) ||
  c.toNat = 95 || c.toNat = 45

/-- Python `str.lower`, per character (the repository only feeds it ASCII). -/
def pyLower (c : Char) : Char :=
  if 65 ≤ c.toNat ∧ c.toNat ≤ 90 then Char.ofNat (c.toNat + 32) else c

/-- Python `str.strip()`: drop whitespace from both ends. -/
def stripL (l : List Char) : List Char :=
  ((l.dropWhile isPySpace).reverse.dropWhile isPySpace).reverse

/-- `_slug`/`slug` on character lists:
`(s or "misc").strip().lower().replace(" ", "-")` then remove every
character outside `[a-z0-9_-]`. -/
def slugL (l : List Char) : List Char :=
  let s := if l = [] then "misc".data else l
  ((((stripL s).map pyLower).map fun c => if c = ' ' then '-' else c).filter isSlugChar)

/-- `_slug` (run_and_save.py line 38) = `slug` (organize_outputs.py line 19). -/
def slug (s : String) : String := ⟨slugL s.data⟩

/-! ## `compute_grid` (run_all.py lines 45-52) -/

/-- `math.ceil(math.sqrt n)` for a natural number (the source computes it
through a float, which is exact on the sizes involved). -/
def ceilSqrt (n : Nat) : Nat :=
  if Nat.sqrt n * Nat.sqrt n = n then Nat.sqrt n else Nat.sqrt n + 1

/-- `compute_grid(n)`: `(0, 0)` for `n <= 0`, `(1, n)` for `n <= 3`, else
`cols = ceil(sqrt n)`, `rows = ceil(n / cols)`, returned as `(rows, cols)`. -/
def compute_grid (n : Int) : Int × Int :=
  if n ≤ 0 then (0, 0)
  else if n ≤ 3 then (1, n)
  else
    let m := n.toNat
    let cols := ceilSqrt m
    let rows := (m + cols - 1) / cols
    ((rows : Int), (cols : Int))

/-! ## Montage compositor (`make_montage`, make_montage.py lines 15-81)

Images are abstracted to their pixel dimensions; the composed canvas is
recorded as its size plus the list of placed tiles (geometry and the label
text drawn under each tile, verbatim as the source draws it). -/

inductive MontageError where
  | invalidLayout
  | emptyInput
  deriving DecidableEq, Repr

structure Img where
  width : Nat
  height : Nat
  deriving DecidableEq, Repr

structure Tile where
  imgIdx : Nat
  x : Nat
  y : Nat
  w : Nat
  h : Nat
  label : Option String
  deriving DecidableEq, Repr

structure Canvas where
  width : Nat
  height : Nat
  tiles : List Tile
  deriving DecidableEq, Repr

/-- `max(im.width for im in images)` (well defined only on nonempty input). -/
def maxWidth (images : List Img) : Nat :=
  images.foldl (fun a im => max a im.width) 0

/-- `max(im.height for im in images)`. -/
def maxHeight (images : List Img) : Nat :=
  images.foldl (fun a im => max a im.height) 0

/-- Tile-size resolution (make_montage.py lines 30-34): the explicit
`tile_size` if given, else the componentwise maximum over the images;
`none` when the Python `max` would raise on an empty sequence. -/
def resolvedTile (images : List Img) (tileSize : Option (Nat × Nat)) :
    Option (Nat × Nat) :=
  match tileSize with
  | some t => some t
  | none =>
    match images with
    | [] => none
    | _ :: _ => some (maxWidth images, maxHeight images)

/-- `has_labels = bool(labels)`: a labels argument is truthy exactly when it
is present and nonempty. -/
def hasLabels (labels : Option (List String)) : Bool :=
  match labels with
  | some (_ :: _) => true
  | _ => false

/-- Label band height used in the layout (lines 37-41): `label_height`,
replaced by 24 when labels are present and the given height is non-positive,
and 0 when there are no labels. -/
def resolvedLabelBand (labels : Option (List String)) (labelHeight : Int) : Nat :=
  if hasLabels labels then (if labelHeight ≤ 0 then 24 else labelHeight.toNat) else 0

/-- The label text drawn under tile `idx` (lines 63-79):
`labels[idx] if idx < len(labels) else None`, drawn only when truthy, and
drawn verbatim. -/
def renderedLabel (labels : Option (List String)) (idx : Nat) : Option String :=
  if hasLabels labels then
    match (labels.getD [])[idx]? with
    | some l => if l = "" then none else some l
    | none => none
  else none

/-- One iteration of the placement loop (lines 50-79): tile `idx` sits in
grid cell `(idx / cols, idx % cols)`, is resized to `(tw, th)`, and carries
the verbatim label text drawn beneath it. -/
def montageTile (cols tw th lh padding : Nat) (labels : Option (List String))
    (idx : Nat) : Tile :=
  { imgIdx := idx
    x := padding + (idx % cols) * (tw + padding)
    y := padding + (idx / cols) * (th + lh + padding)
    w := tw
    h := th
    label := renderedLabel labels idx }

/-- `make_montage` (lines 15-81).  The capacity assert, tile-size
resolution, label-band default, canvas allocation and the placement loop
are modelled; pixel contents, borders and fonts are abstracted away. -/
def make_montage (images : List Img) (rows cols : Nat)
    (tileSize : Option (Nat × Nat)) (padding : Nat)
    (labels : Option (List String)) (labelHeight : Int) :
    Except MontageError Canvas :=
  if rows * cols < images.length then .error .invalidLayout
  else
    match resolvedTile images tileSize with
    | none => .error .emptyInput
    | some (tw, th) =>
      let lh := resolvedLabelBand labels labelHeight
      .ok { width := cols * tw + (cols + 1) * padding
            height := rows * (th + lh) + (rows + 1) * padding
            tiles := (List.range images.length).map
              (montageTile cols tw th lh padding labels) }

/-! ## Figure-capture harness (`main` in run_and_save.py)

Figures are abstracted to their matplotlib number (creation order), their
suptitle and their axes titles.  The working-directory dance, the
"no figures" report, the `max-figs` truncation and the filename loop
(lines 81-131) are modelled; actual pixel output is not. -/

/-- Decimal digit characters `'0'..'9'`. -/
def isDigitC (c : Char) : Bool := 48 ≤ c.toNat && c.toNat ≤ 57

/-- The decimal digit character for `d < 10` (clamped at `'9'`, which the
callers below never reach). -/
def digitChar : Nat → Char
  | 0 => '0' | 1 => '1' | 2 => '2' | 3 => '3' | 4 => '4'
  | 5 => '5' | 6 => '6' | 7 => '7' | 8 => '8' | _ => '9'

/-- Decimal digits of `n`, most significant first; `fuel` bounds the
recursion (any `fuel > n` is enough). -/
def natDigitsFuel : Nat → Nat → List Char
  | 0, _ => []
  | fuel + 1, n =>
    if n < 10 then [digitChar n]
    else natDigitsFuel fuel (n / 10) ++ [digitChar (n % 10)]

/-- Decimal rendering of a natural number, as Python `"%d"` prints it. -/
def natDigits (n : Nat) : List Char := natDigitsFuel (n + 1) n

/-- Numeric value of a digit string; the inverse of `natDigits`. -/
def digitsVal (l : List Char) : Nat :=
  l.foldl (fun a c => a * 10 + (c.toNat - 48)) 0

/-- Python `f"{i:02d}"`: the decimal digits, left-padded with `'0'` to
width 2. -/
def fmt2 (i : Nat) : List Char :=
  if i < 10 then '0' :: natDigits i else natDigits i

def pngSuffix : List Char := ['.', 'p', 'n', 'g']

/-- `f"{idx:02d}{('-' + label) if label else ''}.png"`
(run_and_save.py line 120). -/
def mkFname (idx : Nat) (label : List Char) : List Char :=
  fmt2 idx ++ (if label = [] then [] else '-' :: label) ++ pngSuffix

/-- `f"{idx:02d}{('-' + label) if label else ''}-dup.png"`
(run_and_save.py line 122: the collision retry name). -/
def mkFnameDup (idx : Nat) (label : List Char) : List Char :=
  fmt2 idx ++ (if label = [] then [] else '-' :: label) ++
    ('-' :: 'd' :: 'u' :: 'p' :: pngSuffix)

/-- The `while fname in used_names` loop (lines 121-122).  The retry
recomputes the same `-dup` candidate each iteration, so the loop runs zero
times, once, or forever; `none` models the divergent third case. -/
def resolveName (idx : Nat) (label : List Char) (used : List (List Char)) :
    Option (List Char) :=
  let f := mkFname idx label
  if f ∈ used then
    let g := mkFnameDup idx label
    if g ∈ used then none else some g
  else some f

/-- The save loop over the retained figures' labels, carrying `used_names`
and the 1-based `idx` from `enumerate(fig_nums, start=1)`. -/
def saveLoop : List (List Char) → Nat → List (List Char) → Option (List (List Char))
  | [], _, _ => some []
  | lab :: rest, idx, used =>
    match resolveName idx lab used with
    | none => none
    | some fn => (saveLoop rest (idx + 1) (fn :: used)).map (fn :: ·)

/-- A matplotlib figure as the harness sees it: its figure number
(assigned in creation order) and the title texts label derivation reads. -/
structure Fig where
  num : Nat
  suptitle : Option String
  axTitles : List String
  deriving DecidableEq, Repr

/-- Python `s.strip()` on a string. -/
def stripStr (s : String) : String := ⟨stripL s.data⟩

/-- The first axes title that is nonempty after stripping
(run_and_save.py lines 56-63). -/
def firstAxTitle : List String → Option String
  | [] => none
  | t :: rest => if stripL t.data = [] then firstAxTitle rest else some (stripStr t)

/-- `_derive_fig_label` (lines 42-66): suptitle if strip-nonempty, else the
first strip-nonempty axes title, else the default base; then `_slug`. -/
def deriveFigLabel (fig : Fig) (defaultBase : String) : String :=
  let fromSup : Option String :=
    match fig.suptitle with
    | some t => if stripL t.data = [] then none else some (stripStr t)
    | none => none
  let title : String :=
    match fromSup with
    | some t => t
    | none =>
      match firstAxTitle fig.axTitles with
      | some t => t
      | none => defaultBase
  slug title

/-- `if len(label) > 64: label = label[:64].rstrip('-')` (lines 118-119). -/
def truncLabel (l : List Char) : List Char :=
  if 64 < l.length then ((l.take 64).reverse.dropWhile (· = '-')).reverse else l

/-- The label used for one figure's filename (lines 113-119): derive, drop
when equal to the script base, cap at 64 characters. -/
def labelFor (fig : Fig) (scriptBase : String) : List Char :=
  let base := slug scriptBase
  let label := deriveFigLabel fig base
  let label := if label = base then "" else label
  truncLabel label.data

/-- Insertion into a list sorted by figure number. -/
def insertByNum (f : Fig) : List Fig → List Fig
  | [] => [f]
  | g :: rest => if f.num ≤ g.num then f :: g :: rest else g :: insertByNum f rest

/-- `sorted(figs)` on figure numbers (line 100). -/
def sortByNum (l : List Fig) : List Fig := l.foldr insertByNum []

/-- `sorted(figs)[: max(0, int(args.max_figs))]` followed by the save loop. -/
def captureFigs (figs : List Fig) (scriptBase : String) (maxFigs : Int) :
    Option (List (List Char)) :=
  let keep := (sortByNum figs).take maxFigs.toNat
  saveLoop (keep.map fun f => labelFor f scriptBase) 1 []

/-- What running one unit leaves behind: whether `runpy.run_path` raised,
and the figures registered with the global pyplot state at that point. -/
structure ExecOutcome where
  raised : Bool
  figs : List Fig
  deriving Repr

/-- The observable result of `main`: the working directory after the
`finally`, the saved filenames (or the propagated exception), and whether
the "no figures" message was printed. -/
structure HarnessResult where
  finalCwd : String
  outcome : Except Unit (List (List Char))
  noFigsReported : Bool
  deriving Repr

/-- `main` of run_and_save.py (lines 69-131): chdir into the unit's
directory, run it (restoring the directory unconditionally via `finally`),
then — only if execution returned normally — enumerate the registered
figures and save at most `max_figs` of them.  An exception from the unit
propagates as `.error` after the `finally`, skipping capture entirely. -/
def harnessMain (origCwd unitDir : String) (exec : ExecOutcome)
    (scriptBase : String) (maxFigs : Int) : HarnessResult :=
  -- the `finally: os.chdir(cwd)` makes origCwd the final directory on
  -- every path, including the raising one; unitDir is only ever the
  -- transient directory during execution
  if exec.raised then
    { finalCwd := origCwd, outcome := .error (), noFigsReported := false }
  else if exec.figs.isEmpty then
    { finalCwd := origCwd, outcome := .ok [], noFigsReported := true }
  else
    match captureFigs exec.figs scriptBase maxFigs with
    | some files => { finalCwd := origCwd, outcome := .ok files, noFigsReported := false }
    | none => { finalCwd := origCwd, outcome := .error (), noFigsReported := false }

/-! ## Output reorganizer (`main` in organize_outputs.py)

The outputs tree is a rose tree of directories (name plus subtree) and
files (names only; the reorganizer never reads file contents).  The script
index built from the repository tree is abstracted as a fixed function from
script base name to the script's containing-directory name, since it is
recomputed identically on every run.  Pass A relocates `<base>-fig<n>.png`
files sitting directly under the outputs root; pass B walks bottom-up and
renames every directory to its slug, merging on collision.  Each individual
move/rename is wrapped in `try/except` in the source; a `false` flag below
records that some operation was skipped (and what partial state the caught
exception leaves behind). -/

mutual
inductive FTree where
  | node (dirs : DirList) (files : List String)
inductive DirList where
  | nil
  | cons (name : String) (tree : FTree) (rest : DirList)
end

/-- Child-directory names, in listing order. -/
def DirList.names : DirList → List String
  | .nil => []
  | .cons n _ rest => n :: rest.names

/-- First entry with the given name. -/
def DirList.lookup : DirList → String → Option FTree
  | .nil, _ => none
  | .cons n t rest, d => if n = d then some t else rest.lookup d

/-- Replace the subtree of the first entry with the given name. -/
def DirList.replace : DirList → String → FTree → DirList
  | .nil, _, _ => .nil
  | .cons n t rest, d, t2 =>
    if n = d then .cons n t2 rest else .cons n t (rest.replace d t2)

/-- Rename the first entry called `d` to `n2`, keeping its subtree. -/
def DirList.rename : DirList → String → String → DirList
  | .nil, _, _ => .nil
  | .cons n t rest, d, n2 =>
    if n = d then .cons n2 t rest else .cons n t (rest.rename d n2)

/-- Remove the first entry with the given name. -/
def DirList.remove : DirList → String → DirList
  | .nil, _ => .nil
  | .cons n t rest, d => if n = d then rest else .cons n t (rest.remove d)

/-- Append an entry at the end of the listing. -/
def DirList.push : DirList → String → FTree → DirList
  | .nil, n, t => .cons n t .nil
  | .cons m s rest, n, t => .cons m s (rest.push n t)

def rootDirs : FTree → DirList
  | .node ds _ => ds

/-- `shutil.move(old/f, tgt)` for a file into a directory `tgt`. -/
def moveFileIntoDir (f : String) : FTree → Option FTree
  | .node dt ft =>
    match dt.lookup f with
    | some (.node dd fdd) =>
      if f ∈ fdd ∨ (dd.lookup f).isSome then none
      else some (.node (dt.replace f (.node dd (fdd ++ [f]))) ft)
    | none => some (.node dt (if f ∈ ft then ft else ft ++ [f]))

/-- `shutil.move(old/m, tgt/m)` for a directory: plain move, nest inside an
existing same-named directory, or raise when the target is a file or the
nested name is taken. -/
def moveDirIntoDir (m : String) (s : FTree) : FTree → Option FTree
  | .node dt ft =>
    if m ∈ ft then none
    else
      match dt.lookup m with
      | some (.node dd fdd) =>
        if m ∈ fdd ∨ (dd.lookup m).isSome then none
        else some (.node (dt.replace m (.node (dd.push m s) fdd)) ft)
      | none => some (.node (dt.push m s) ft)

/-- Move the listed files of the merged directory into the target,
stopping at the first failure; returns the target, the children not yet
moved, and the success flag. -/
def moveFilesInto : List String → FTree → FTree × List String × Bool
  | [], tgt => (tgt, [], true)
  | f :: rest, tgt =>
    match moveFileIntoDir f tgt with
    | some tgt2 => moveFilesInto rest tgt2
    | none => (tgt, f :: rest, false)

/-- Move the child directories of the merged directory into the target,
stopping at the first failure. -/
def moveDirsInto : DirList → FTree → FTree × DirList × Bool
  | .nil, tgt => (tgt, .nil, true)
  | .cons m s rest, tgt =>
    match moveDirIntoDir m s tgt with
    | some tgt2 => moveDirsInto rest tgt2
    | none => (tgt, .cons m s rest, false)

/-- The merge branch (lines 64-69) when `slug d` names an existing sibling
directory: move every child of `d` into it (files first in this model),
then `os.rmdir(d)`.  A failed child move aborts the merge mid-way, leaving
`d` with its unmoved children. -/
def mergeIntoDir (d n : String) (cur : DirList) (fs : List String) :
    DirList × List String × Bool :=
  match cur.lookup d, cur.lookup n with
  | some (.node ds2 fs2), some tgt =>
    let mf := moveFilesInto fs2 tgt
    if mf.2.2 then
      let md := moveDirsInto ds2 mf.1
      if md.2.2 then ((cur.replace n md.1).remove d, fs, true)
      else ((cur.replace n md.1).replace d (.node md.2.1 []), fs, false)
    else ((cur.replace n mf.1).replace d (.node ds2 mf.2.1), fs, false)
  | _, _ => (cur, fs, true)

/-- The merge branch when `slug d` names an existing FILE at this level:
every child's destination `os.path.join(new_path, child)` has the file
`new_path` as an intermediate path component, so the first `shutil.move`
raises `NotADirectoryError`; the caught exception logs a skip and leaves
`d` and all of its children in place.  Only a childless `d` merges
cleanly: the loop body never runs and `os.rmdir` removes it. -/
def mergeOntoFile (d : String) (cur : DirList) (fs : List String) :
    DirList × List String × Bool :=
  match cur.lookup d with
  | some (.node ds2 fs2) =>
    match ds2, fs2 with
    | .nil, [] => (cur.remove d, fs, true)
    | _, _ => (cur, fs, false)
  | none => (cur, fs, true)

/-- Move the files of a directory whose slug is empty up into its own
parent level (because `os.path.join(dirpath, "")` is the parent itself).
Returns the updated siblings, level files, unmoved children, flag. -/
def levelMoveFiles (d : String) : List String → DirList → List String →
    DirList × List String × List String × Bool
  | [], cur, fs => (cur, fs, [], true)
  | f :: rest, cur, fs =>
    if f = d then (cur, fs, f :: rest, false)
    else if f ∈ fs then levelMoveFiles d rest cur fs
    else
      match cur.lookup f with
      | some (.node dd fdd) =>
        if f ∈ fdd ∨ (dd.lookup f).isSome then (cur, fs, f :: rest, false)
        else levelMoveFiles d rest (cur.replace f (.node dd (fdd ++ [f]))) fs
      | none => levelMoveFiles d rest cur (fs ++ [f])

/-- Move the child directories of an empty-slug directory up into its own
parent level. -/
def levelMoveDirs (d : String) : DirList → DirList → List String →
    DirList × List String × DirList × Bool
  | .nil, cur, fs => (cur, fs, .nil, true)
  | .cons m s rest, cur, fs =>
    if m = d ∨ m ∈ fs then (cur, fs, .cons m s rest, false)
    else
      match cur.lookup m with
      | some (.node dd fdd) =>
        if m ∈ fdd ∨ (dd.lookup m).isSome then (cur, fs, .cons m s rest, false)
        else levelMoveDirs d rest (cur.replace m (.node (dd.push m s) fdd)) fs
      | none => levelMoveDirs d rest (cur.push m s) fs

/-- The merge branch when `slug d = ""`: `new_path` is the parent directory
itself, which exists, so the children of `d` are merged one level up. -/
def mergeIntoLevel (d : String) (cur : DirList) (fs : List String) :
    DirList × List String × Bool :=
  match cur.lookup d with
  | some (.node ds2 fs2) =>
    let mf := levelMoveFiles d fs2 cur fs
    if mf.2.2.2 then
      let md := levelMoveDirs d ds2 mf.1 mf.2.1
      if md.2.2.2 then (md.1.remove d, md.2.1, true)
      else (md.1.replace d (.node md.2.2.1 []), md.2.1, false)
    else (mf.1.replace d (.node ds2 mf.2.2.1), mf.2.1, false)
  | none => (cur, fs, true)

/-- Process one listed directory name at one level (lines 54-71): skip when
already a slug, else rename, or merge when the slugged name exists. -/
def pbStep (d : String) (cur : DirList) (fs : List String) :
    DirList × List String × Bool :=
  match cur.lookup d with
  | none => (cur, fs, true)
  | some _ =>
    let n := slug d
    if n = d then (cur, fs, true)
    else if n = "" then mergeIntoLevel d cur fs
    else if (cur.lookup n).isSome then mergeIntoDir d n cur fs
    else if n ∈ fs then mergeOntoFile d cur fs
    else (cur.rename d n, fs, true)

/-- Iterate `pbStep` over the walk's (stale) listing of directory names. -/
def pbSteps : List String → DirList → List String →
    DirList × List String × Bool
  | [], cur, fs => (cur, fs, true)
  | d :: rest, cur, fs =>
    let s := pbStep d cur fs
    let s2 := pbSteps rest s.1 s.2.1
    (s2.1, s2.2.1, s.2.2 && s2.2.2)

mutual
/-- Pass B (`os.walk(OUT, topdown=False)`, lines 52-71): normalize the
interiors of all children first (the walk yields deepest directories
first), then rename/merge this level's children under their names as
listed before any rename. -/
def pbTree : FTree → FTree × Bool
  | .node dirs files =>
    let p := pbDirs dirs
    let s := pbSteps (DirList.names dirs) p.1 files
    (.node s.1 s.2.1, p.2 && s.2.2)

/-- Interior normalization of each child subtree, preserving the child's
own (possibly non-slug) name for the parent to handle. -/
def pbDirs : DirList → DirList × Bool
  | .nil => (.nil, true)
  | .cons n t rest =>
    let a := pbTree t
    let b := pbDirs rest
    (.cons n a.1 b.1, a.2 && b.2)
end

mutual
/-- No directory anywhere in the tree has a name whose slug is empty. -/
def nesTree : FTree → Bool
  | .node dirs _ => nesDirs dirs

/-- Helper for `nesTree` over a directory listing. -/
def nesDirs : DirList → Bool
  | .nil => true
  | .cons n t rest => (slug n ≠ "" : Bool) && nesTree t && nesDirs rest
end

mutual
/-- Every directory name in the tree is already its own slug. -/
def slugFixedTree : FTree → Bool
  | .node dirs _ => slugFixedDirs dirs

/-- Helper for `slugFixedTree` over a directory listing. -/
def slugFixedDirs : DirList → Bool
  | .nil => true
  | .cons n t rest => (slug n = n : Bool) && slugFixedTree t && slugFixedDirs rest
end

mutual
/-- Every child subtree's interior is slug-normalized (the entry names at
this level are unconstrained).  This is the state pass B's bottom-up walk
establishes for a directory's children before renaming them. -/
def intSFDirs : DirList → Bool
  | .nil => true
  | .cons _ t rest => slugFixedTree t && intSFDirs rest
end

mutual
/-- Sibling directory names are duplicate-free at every level (true of any
listing produced by a real filesystem). -/
def nodupTree : FTree → Bool
  | .node dirs _ => dirs.names.Nodup && nodupDirs dirs

/-- Helper for `nodupTree` over a directory listing. -/
def nodupDirs : DirList → Bool
  | .nil => true
  | .cons _ t rest => nodupTree t && nodupDirs rest
end

/-! ## Slugger lemmas and claim C2 -/

theorem isSlugChar_pyLower {c : Char} (h : isSlugChar c = true) : pyLower c = c := by
  simp only [isSlugChar, Bool.or_eq_true, Bool.and_eq_true, decide_eq_true_eq] at h
  have hno : ¬ (65 ≤ c.toNat ∧ c.toNat ≤ 90) := by omega
  simp [pyLower, hno]

theorem isSlugChar_not_space {c : Char} (h : isSlugChar c = true) :
    isPySpace c = false := by
  simp only [isSlugChar, Bool.or_eq_true, Bool.and_eq_true, decide_eq_true_eq] at h
  simp only [isPySpace, Bool.or_eq_false_iff, Bool.and_eq_false_iff,
    decide_eq_false_iff_not]
  omega

theorem isSlugChar_ne_blank {c : Char} (h : isSlugChar c = true) : c ≠ ' ' := by
  intro he
  subst he
  exact absurd h (by decide)

theorem dropWhile_eq_self_of {p : Char → Bool} {l : List Char}
    (h : ∀ c ∈ l, p c = false) : l.dropWhile p = l := by
  cases l with
  | nil => rfl
  | cons a t => simp [List.dropWhile_cons, h a (by simp)]

theorem map_eq_self_of {f : Char → Char} {l : List Char}
    (h : ∀ c ∈ l, f c = c) : l.map f = l := by
  induction l with
  | nil => rfl
  | cons a t ih =>
    simp only [List.map_cons, h a (by simp)]
    rw [ih fun c hc => h c (by simp [hc])]

theorem mem_slugL_isSlugChar {l : List Char} {c : Char} (h : c ∈ slugL l) :
    isSlugChar c = true := by
  simp only [slugL] at h
  exact (List.mem_filter.mp h).2

/-- A nonempty string of slug characters is a fixed point of the slugger:
none of stripping, lowering, hyphenation or filtering touches it. -/
theorem slugL_fixed {l : List Char} (hne : l ≠ [])
    (h : ∀ c ∈ l, isSlugChar c = true) : slugL l = l := by
  have hsp : ∀ c ∈ l, isPySpace c = false := fun c hc => isSlugChar_not_space (h c hc)
  have hstrip : stripL l = l := by
    unfold stripL
    rw [dropWhile_eq_self_of hsp, dropWhile_eq_self_of (by simpa using hsp),
      List.reverse_reverse]
  simp only [slugL, if_neg hne, hstrip]
  rw [map_eq_self_of fun c hc => isSlugChar_pyLower (h c hc)]
  rw [map_eq_self_of fun c hc => if_neg (isSlugChar_ne_blank (h c hc))]
  exact List.filter_eq_self.mpr h

/-- The slugger is idempotent on every input whose slug is nonempty. -/
theorem slugL_slugL {l : List Char} (h : slugL l ≠ []) :
    slugL (slugL l) = slugL l :=
  slugL_fixed h fun _ hc => mem_slugL_isSlugChar hc

/-- Claim C2 as stated is false: `"!"` consists only of removable
characters, so it slugs to the empty string, whose slug in turn is
`"misc"` — idempotence fails.  Moreover internal non-space whitespace is
removed, not hyphenated: `slug "a\tb" = "ab"`. -/
theorem slug_idempotence_counterexample :
    slug (slug "!") ≠ slug "!" ∧ slug "!" = "" ∧ slug (slug "!") = "misc" ∧
    slug "a\tb" = "ab" := by decide

/-- Claim C2, amended: `slug` lower-cases, strips outer whitespace,
hyphenates internal spaces, filters to `[a-z0-9_-]` and sends empty input
to `"misc"` (witnessed by `slug "" = "misc"` and
`slug "My Label!" = "my-label"`), and it is idempotent on every input
whose slug is nonempty; an input whose characters are all removed slugs to
`""`, which re-slugs to `"misc"`. -/
theorem slug_amended (s : String) (h : slug s ≠ "") :
    slug (slug s) = slug s ∧ slug "" = "misc" ∧ slug "My Label!" = "my-label" := by
  refine ⟨?_, by decide, by decide⟩
  have hne : slugL s.data ≠ [] := by
    intro he
    exact h (by simp [slug, he])
  simp only [slug]
  exact congrArg String.mk (slugL_slugL hne)

theorem slug_amended_witness :
    slug "My Label!" ≠ "" ∧ slug (slug "My Label!") = slug "My Label!" :=
  ⟨by decide, (slug_amended "My Label!" (by decide)).1⟩

/-! ## `compute_grid` lemmas and claim C3 -/

/-- `ceilSqrt m` is the least integer whose square reaches `m`. -/
theorem ceilSqrt_bounds {m : Nat} (hm : 1 ≤ m) :
    0 < ceilSqrt m ∧ (ceilSqrt m - 1) * (ceilSqrt m - 1) < m ∧
      m ≤ ceilSqrt m * ceilSqrt m := by
  have h1 : Nat.sqrt m * Nat.sqrt m ≤ m := Nat.sqrt_le m
  have h2 : m < (Nat.sqrt m + 1) * (Nat.sqrt m + 1) := Nat.lt_succ_sqrt m
  have h3 : 0 < Nat.sqrt m := Nat.sqrt_pos.mpr hm
  unfold ceilSqrt
  split
  case isTrue he =>
    refine ⟨h3, ?_, by omega⟩
    obtain ⟨t, ht⟩ : ∃ t, Nat.sqrt m = t + 1 := ⟨Nat.sqrt m - 1, by omega⟩
    rw [ht] at he ⊢
    have hexp : (t + 1) * (t + 1) = t * t + 2 * t + 1 := by ring
    simp only [Nat.add_sub_cancel]
    omega
  case isFalse he =>
    refine ⟨by omega, ?_, by omega⟩
    simp only [Nat.add_sub_cancel]
    omega

theorem sqrt_five : Nat.sqrt 5 = 2 := (Nat.eq_sqrt.mpr (by norm_num)).symm

theorem sqrt_ten : Nat.sqrt 10 = 3 := (Nat.eq_sqrt.mpr (by norm_num)).symm

/-- Claim C3's example outputs are transposed: the source returns
`(rows, cols)`, which for 5 images is `(2, 3)` and for 10 is `(3, 4)`. -/
theorem compute_grid_counterexample :
    compute_grid 5 = (2, 3) ∧ ¬ compute_grid 5 = (3, 2) ∧
    compute_grid 10 = (3, 4) ∧ ¬ compute_grid 10 = (4, 3) := by
  have h5 : compute_grid 5 = (2, 3) := by
    have hm : (5 : Int).toNat = 5 := rfl
    rw [compute_grid, if_neg (by norm_num), if_neg (by norm_num)]
    simp only [hm, ceilSqrt, sqrt_five]
    decide
  have h10 : compute_grid 10 = (3, 4) := by
    have hm : (10 : Int).toNat = 10 := rfl
    rw [compute_grid, if_neg (by norm_num), if_neg (by norm_num)]
    simp only [hm, ceilSqrt, sqrt_ten]
    decide
  exact ⟨h5, by rw [h5]; decide, h10, by rw [h10]; decide⟩

/-- Claim C3, amended: `compute_grid n` is `(0,0)` for `n ≤ 0`, `(1, n)`
for `1 ≤ n ≤ 3`, and for `n > 3` it is `(rows, cols)` — rows first — where
`cols` is the least integer whose square reaches `n` (that is,
`ceil(sqrt n)`) and `rows = ceil(n / cols)`; in particular
`compute_grid 4 = (2,2)`, `compute_grid 5 = (2,3)`,
`compute_grid 10 = (3,4)`. -/
theorem compute_grid_amended (n : Int) :
    (n ≤ 0 → compute_grid n = (0, 0)) ∧
    (1 ≤ n → n ≤ 3 → compute_grid n = (1, n)) ∧
    (3 < n →
      ∃ r c : Nat, compute_grid n = ((r : Int), (c : Int)) ∧ 0 < c ∧
        (c - 1) * (c - 1) < n.toNat ∧ n.toNat ≤ c * c ∧
        c * (r - 1) < n.toNat ∧ n.toNat ≤ c * r) := by
  refine ⟨fun h => by simp [compute_grid, h], fun h1 h3 => ?_, fun h3 => ?_⟩
  · rw [compute_grid, if_neg (by omega), if_pos h3]
  · have hm : 4 ≤ n.toNat := by omega
    rw [compute_grid, if_neg (by omega), if_neg (by omega)]
    obtain ⟨hc, hlo, hhi⟩ := ceilSqrt_bounds (m := n.toNat) (by omega)
    refine ⟨(n.toNat + ceilSqrt n.toNat - 1) / ceilSqrt n.toNat, ceilSqrt n.toNat,
      rfl, hc, hlo, hhi, ?_, ?_⟩ <;>
    · have hdm := Nat.div_add_mod (n.toNat + ceilSqrt n.toNat - 1) (ceilSqrt n.toNat)
      have hmod := Nat.mod_lt (n.toNat + ceilSqrt n.toNat - 1) hc
      cases hq : (n.toNat + ceilSqrt n.toNat - 1) / ceilSqrt n.toNat with
      | zero => rw [hq] at hdm; omega
      | succ t =>
        rw [hq] at hdm
        rw [Nat.mul_succ] at hdm
        simp only [Nat.add_sub_cancel, Nat.mul_succ]
        omega

/-! ## Montage lemmas and claims C1, C4, C9, C10 -/

theorem resolvedTile_some {images : List Img} {tileSize : Option (Nat × Nat)}
    (hres : tileSize ≠ none ∨ images ≠ []) :
    ∃ tw th, resolvedTile images tileSize = some (tw, th) := by
  cases tileSize with
  | some t => exact ⟨t.1, t.2, rfl⟩
  | none =>
    cases images with
    | nil => simp at hres
    | cons a l => exact ⟨maxWidth (a :: l), maxHeight (a :: l), rfl⟩

/-- The successful montage, spelled out. -/
theorem make_montage_ok {images : List Img} {rows cols : Nat}
    {tileSize : Option (Nat × Nat)} {padding : Nat} {labels : Option (List String)}
    {labelHeight : Int} {tw th : Nat}
    (hcap : images.length ≤ rows * cols)
    (hrt : resolvedTile images tileSize = some (tw, th)) :
    make_montage images rows cols tileSize padding labels labelHeight =
      .ok { width := cols * tw + (cols + 1) * padding
            height := rows * (th + resolvedLabelBand labels labelHeight) +
              (rows + 1) * padding
            tiles := (List.range images.length).map
              (montageTile cols tw th (resolvedLabelBand labels labelHeight)
                padding labels) } := by
  rw [make_montage, if_neg (not_lt.mpr hcap), hrt]

/-- Claim C1: whenever the grid has capacity for the images (and the tile
size resolves, i.e. a tile size is given or there is at least one image to
take the maximum over), `make_montage` returns a canvas of exactly
`(cols*tw + (cols+1)*p, rows*(th + lh) + (rows+1)*p)`, where `(tw, th)` is
the given tile size or else the componentwise maximum over the images and
`lh` is the resolved label band (24 when labels are present and the given
height is non-positive, the given height when positive, 0 with no
labels). -/
theorem montage_canvas_size (images : List Img) (rows cols : Nat)
    (tileSize : Option (Nat × Nat)) (padding : Nat) (labels : Option (List String))
    (labelHeight : Int)
    (hcap : images.length ≤ rows * cols)
    (hres : tileSize ≠ none ∨ images ≠ []) :
    ∃ tw th, resolvedTile images tileSize = some (tw, th) ∧
      ∃ canvas, make_montage images rows cols tileSize padding labels labelHeight =
          .ok canvas ∧
        canvas.width = cols * tw + (cols + 1) * padding ∧
        canvas.height = rows * (th + resolvedLabelBand labels labelHeight) +
          (rows + 1) * padding := by
  obtain ⟨tw, th, hrt⟩ := resolvedTile_some hres
  exact ⟨tw, th, hrt, _, make_montage_ok hcap hrt, rfl, rfl⟩

theorem montage_canvas_size_witness :
    ∃ tw th, resolvedTile [⟨3, 2⟩, ⟨5, 1⟩] none = some (tw, th) ∧
      ∃ canvas, make_montage [⟨3, 2⟩, ⟨5, 1⟩] 1 2 none 4 (some ["a"]) 0 =
          .ok canvas ∧
        canvas.width = 2 * tw + (2 + 1) * 4 ∧
        canvas.height = 1 * (th + resolvedLabelBand (some ["a"]) 0) + (1 + 1) * 4 :=
  montage_canvas_size [⟨3, 2⟩, ⟨5, 1⟩] 1 2 none 4 (some ["a"]) 0 (by decide)
    (Or.inr (by decide))

/-- Claim C4 as stated is false: the error paths are not exhausted by the
capacity check.  With an empty image list and no explicit tile size the
source raises `ValueError` from `max()` on an empty sequence even though
`rows*cols = 1 ≥ 0 = len(images)`. -/
theorem montage_error_counterexample :
    make_montage [] 1 1 none 16 none 24 = .error .emptyInput ∧
    ([] : List Img).length ≤ 1 * 1 := ⟨rfl, by decide⟩

/-- Claim C4, amended: `make_montage` fails with `InvalidLayout` exactly
when `rows*cols < len(images)`; with capacity it composes a canvas except
in the one further error case of an empty image list with no explicit tile
size, where the tile-size maximum raises. -/
theorem montage_error_iff (images : List Img) (rows cols : Nat)
    (tileSize : Option (Nat × Nat)) (padding : Nat) (labels : Option (List String))
    (labelHeight : Int) :
    (make_montage images rows cols tileSize padding labels labelHeight =
        .error .invalidLayout ↔ rows * cols < images.length) ∧
    (make_montage images rows cols tileSize padding labels labelHeight =
        .error .emptyInput ↔
      images.length ≤ rows * cols ∧ tileSize = none ∧ images = []) ∧
    ((∃ c, make_montage images rows cols tileSize padding labels labelHeight =
        .ok c) ↔
      images.length ≤ rows * cols ∧ (tileSize ≠ none ∨ images ≠ [])) := by
  by_cases hcap : rows * cols < images.length
  · rw [make_montage, if_pos hcap]
    refine ⟨by simp [hcap], ⟨fun he => by simp at he, fun ⟨hle, _, _⟩ => by omega⟩,
      ⟨fun ⟨c, hc⟩ => by simp at hc, fun ⟨hle, _⟩ => by omega⟩⟩
  · cases hrt : resolvedTile images tileSize with
    | none =>
      have hchar : tileSize = none ∧ images = [] := by
        cases tileSize with
        | some t => simp [resolvedTile] at hrt
        | none =>
          cases images with
          | nil => exact ⟨rfl, rfl⟩
          | cons a l => simp [resolvedTile] at hrt
      rw [make_montage, if_neg hcap, hrt]
      refine ⟨⟨fun he => by simp at he, fun hlt => by omega⟩,
        ⟨fun _ => ⟨by omega, hchar⟩, fun _ => rfl⟩,
        ⟨fun ⟨c, hc⟩ => by simp at hc, fun ⟨_, hor⟩ => ?_⟩⟩
      rcases hor with h | h
      · exact absurd hchar.1 h
      · exact absurd hchar.2 h
    | some t =>
      have hok := @make_montage_ok images rows cols tileSize padding labels
        labelHeight t.1 t.2 (not_lt.mp hcap) (by rw [hrt])
      rw [hok]
      refine ⟨⟨fun he => by simp at he, fun hlt => by omega⟩,
        ⟨fun he => by simp at he, fun ⟨_, hts, him⟩ => ?_⟩,
        ⟨fun _ => ⟨by omega, ?_⟩, fun _ => ⟨_, rfl⟩⟩⟩
      · rw [hts, him] at hrt; simp [resolvedTile] at hrt
      · cases tileSize with
        | some u => exact Or.inl (by simp)
        | none =>
          cases images with
          | nil => simp [resolvedTile] at hrt
          | cons a l => exact Or.inr (by simp)

theorem compute_grid_amended_witness :
    compute_grid (-1) = (0, 0) ∧ compute_grid 3 = (1, 3) ∧
    (∃ r c : Nat, compute_grid 5 = ((r : Int), (c : Int)) ∧ 0 < c ∧
      (c - 1) * (c - 1) < (5 : Int).toNat ∧ (5 : Int).toNat ≤ c * c ∧
      c * (r - 1) < (5 : Int).toNat ∧ (5 : Int).toNat ≤ c * r) :=
  ⟨(compute_grid_amended (-1)).1 (by norm_num),
   (compute_grid_amended 3).2.1 (by norm_num) (by norm_num),
   (compute_grid_amended 5).2.2 (by norm_num)⟩

/-- Claim C9 as stated is false: `make_montage` draws every label verbatim
with no character cap.  A 100-character label is rendered at full length,
exceeding the 64-character cap that exists only in the harness's filename
derivation. -/
theorem montage_label_truncation_counterexample :
    (make_montage [⟨8, 8⟩] 1 1 (some (8, 8)) 16
        (some [⟨List.replicate 100 'a'⟩]) 26).map (fun c => c.tiles.map Tile.label) =
      .ok [some ⟨List.replicate 100 'a'⟩] ∧
    (String.mk (List.replicate 100 'a')).length = 100 := ⟨rfl, rfl⟩

/-- Claim C9, amended: the montage compositor applies no truncation at all —
every label text drawn on a composed canvas is, verbatim, an element of the
labels argument (looked up at the tile's image index). -/
theorem montage_label_verbatim (images : List Img) (rows cols : Nat)
    (tileSize : Option (Nat × Nat)) (padding : Nat) (labels : Option (List String))
    (labelHeight : Int) (c : Canvas) (t : Tile) (s : String)
    (hok : make_montage images rows cols tileSize padding labels labelHeight = .ok c)
    (ht : t ∈ c.tiles) (hs : t.label = some s) :
    ∃ ls, labels = some ls ∧ ls[t.imgIdx]? = some s := by
  rw [make_montage] at hok
  split at hok
  · cases hok
  · split at hok
    · cases hok
    · rename_i tw th heq
      cases hok
      simp only [List.mem_map, List.mem_range] at ht
      obtain ⟨idx, -, rfl⟩ := ht
      simp only [montageTile] at hs ⊢
      unfold renderedLabel at hs
      split at hs
      · rename_i hl
        cases labels with
        | none => simp [hasLabels] at hl
        | some ls =>
          refine ⟨ls, rfl, ?_⟩
          simp only [Option.getD_some] at hs
          cases hg : ls[idx]? with
          | none => rw [hg] at hs; cases hs
          | some l =>
            rw [hg] at hs
            simp only [] at hs
            split at hs
            · cases hs
            · cases hs; rfl
      · cases hs

theorem montage_label_verbatim_witness :
    ∃ ls, (some ["hello"] : Option (List String)) = some ls ∧
      ls[(⟨0, 16, 16, 8, 8, some "hello"⟩ : Tile).imgIdx]? = some "hello" :=
  montage_label_verbatim [⟨8, 8⟩] 1 1 (some (8, 8)) 16 (some ["hello"]) 26
    { width := 40, height := 66, tiles := [⟨0, 16, 16, 8, 8, some "hello"⟩] }
    ⟨0, 16, 16, 8, 8, some "hello"⟩ "hello" rfl (by simp) rfl

/-- Claim C10 (implicit behavior): a labels list shorter than the image
list is tolerated — each tile whose index is beyond the labels list is
placed with no label drawn, and composition still succeeds. -/
theorem montage_short_labels_ok (images : List Img) (rows cols : Nat)
    (tileSize : Option (Nat × Nat)) (padding : Nat) (ls : List String)
    (labelHeight : Int) (i : Nat)
    (hcap : images.length ≤ rows * cols)
    (hres : tileSize ≠ none ∨ images ≠ [])
    (hlen : ls.length ≤ i) (hi : i < images.length) :
    ∃ c, make_montage images rows cols tileSize padding (some ls) labelHeight =
        .ok c ∧
      ∃ t, c.tiles[i]? = some t ∧ t.label = none := by
  obtain ⟨tw, th, hrt⟩ := resolvedTile_some hres
  refine ⟨_, make_montage_ok hcap hrt, ?_⟩
  have hnone : renderedLabel (some ls) i = none := by
    unfold renderedLabel
    split
    · simp [List.getElem?_eq_none hlen]
    · rfl
  refine ⟨montageTile cols tw th (resolvedLabelBand (some ls) labelHeight) padding
    (some ls) i, ?_, ?_⟩
  · show (List.map _ (List.range images.length))[i]? = _
    rw [List.getElem?_map, List.getElem?_range hi]
    rfl
  · simp [montageTile, hnone]

theorem montage_short_labels_ok_witness :
    ∃ c, make_montage [⟨4, 4⟩, ⟨6, 2⟩] 1 2 none 16 (some ["only"]) 0 = .ok c ∧
      ∃ t, c.tiles[1]? = some t ∧ t.label = none :=
  montage_short_labels_ok [⟨4, 4⟩, ⟨6, 2⟩] 1 2 none 16 ["only"] 0 1 (by decide)
    (Or.inr (by decide)) (by decide) (by decide)

/-! ## Filename lemmas for the harness -/

theorem digitChar_isDigit {d : Nat} (h : d < 10) : isDigitC (digitChar d) = true := by
  interval_cases d <;> decide

theorem digitChar_toNat {d : Nat} (h : d < 10) : (digitChar d).toNat = 48 + d := by
  interval_cases d <;> decide

theorem digitChar_ne_zero {d : Nat} (h1 : 1 ≤ d) (h2 : d ≤ 9) : digitChar d ≠ '0' := by
  interval_cases d <;> decide

theorem digitsVal_append (xs : List Char) (c : Char) :
    digitsVal (xs ++ [c]) = digitsVal xs * 10 + (c.toNat - 48) := by
  simp [digitsVal, List.foldl_append]

theorem natDigitsFuel_val {fuel n : Nat} (h : n < fuel) :
    digitsVal (natDigitsFuel fuel n) = n := by
  induction fuel generalizing n with
  | zero => omega
  | succ f ih =>
    rw [natDigitsFuel]
    split
    · rename_i h10
      have ht := digitChar_toNat h10
      simp only [digitsVal, List.foldl]
      omega
    · rename_i h10
      rw [digitsVal_append, ih (by omega)]
      have ht := digitChar_toNat (Nat.mod_lt n (by omega) : n % 10 < 10)
      omega

theorem natDigits_val (n : Nat) : digitsVal (natDigits n) = n :=
  natDigitsFuel_val (Nat.lt_succ_self n)

theorem natDigits_inj {a b : Nat} (h : natDigits a = natDigits b) : a = b := by
  have hv := natDigits_val a
  rw [h, natDigits_val] at hv
  omega

theorem natDigitsFuel_digits {fuel n : Nat} :
    ∀ c ∈ natDigitsFuel fuel n, isDigitC c = true := by
  induction fuel generalizing n with
  | zero => simp [natDigitsFuel]
  | succ f ih =>
    rw [natDigitsFuel]
    split
    · rename_i h10
      simp [digitChar_isDigit h10]
    · intro c hc
      rcases List.mem_append.mp hc with h | h
      · exact ih c h
      · have hd : c = digitChar (n % 10) := by simpa using h
        subst hd
        exact digitChar_isDigit (Nat.mod_lt n (by omega))

theorem natDigitsFuel_head {fuel n : Nat} (hf : n < fuel) (hn : 0 < n) :
    ∃ c rest, natDigitsFuel fuel n = c :: rest ∧ c ≠ '0' := by
  induction fuel generalizing n with
  | zero => omega
  | succ f ih =>
    rw [natDigitsFuel]
    split
    · rename_i h10
      exact ⟨digitChar n, [], rfl, digitChar_ne_zero (by omega) (by omega)⟩
    · rename_i h10
      obtain ⟨c, rest, he, hc⟩ := ih (n := n / 10) (by omega) (by omega)
      exact ⟨c, rest ++ [digitChar (n % 10)], by rw [he]; rfl, hc⟩

theorem fmt2_digits {i : Nat} : ∀ c ∈ fmt2 i, isDigitC c = true := by
  unfold fmt2
  split
  · intro c hc
    rcases List.mem_cons.mp hc with rfl | h
    · decide
    · exact natDigitsFuel_digits c h
  · exact fun c hc => natDigitsFuel_digits c hc

theorem fmt2_inj {i j : Nat} (h : fmt2 i = fmt2 j) : i = j := by
  unfold fmt2 at h
  by_cases hi : i < 10 <;> by_cases hj : j < 10
  · rw [if_pos hi, if_pos hj] at h
    injection h with h1 h2
    exact natDigits_inj h2
  · rw [if_pos hi, if_neg hj] at h
    obtain ⟨c, rest, he, hc⟩ := natDigitsFuel_head (n := j)
      (show j < j + 1 by omega) (by omega)
    have he2 : natDigits j = c :: rest := he
    rw [he2] at h
    injection h with h1 h2
    exact absurd h1.symm hc
  · rw [if_neg hi, if_pos hj] at h
    obtain ⟨c, rest, he, hc⟩ := natDigitsFuel_head (n := i)
      (show i < i + 1 by omega) (by omega)
    have he2 : natDigits i = c :: rest := he
    rw [he2] at h
    injection h with h1 h2
    exact absurd h1 hc
  · rw [if_neg hi, if_neg hj] at h
    exact natDigits_inj h

theorem takeWhile_append_stop {p : Char → Bool} {xs ys : List Char} {y : Char}
    (hxs : ∀ c ∈ xs, p c = true) (hy : p y = false) :
    (xs ++ y :: ys).takeWhile p = xs := by
  induction xs with
  | nil => simp [List.takeWhile_cons, hy]
  | cons a t ih =>
    simp only [List.cons_append, List.takeWhile_cons, hxs a (by simp), if_true]
    rw [ih fun c hc => hxs c (by simp [hc])]

/-- The leading maximal digit run of a generated filename is exactly its
zero-padded index. -/
theorem mkFname_digitRun (idx : Nat) (label : List Char) :
    (mkFname idx label).takeWhile isDigitC = fmt2 idx := by
  unfold mkFname
  by_cases hl : label = []
  · rw [if_pos hl, List.append_nil]
    show (fmt2 idx ++ '.' :: ['p', 'n', 'g']).takeWhile isDigitC = fmt2 idx
    apply takeWhile_append_stop fmt2_digits
    decide
  · rw [if_neg hl, List.append_assoc, List.cons_append]
    apply takeWhile_append_stop fmt2_digits
    decide

theorem mkFnameDup_digitRun (idx : Nat) (label : List Char) :
    (mkFnameDup idx label).takeWhile isDigitC = fmt2 idx := by
  unfold mkFnameDup
  by_cases hl : label = []
  · rw [if_pos hl, List.append_nil]
    apply takeWhile_append_stop fmt2_digits
    decide
  · rw [if_neg hl, List.append_assoc, List.cons_append]
    apply takeWhile_append_stop fmt2_digits
    decide

theorem resolveName_fresh {idx : Nat} {lab : List Char} {used : List (List Char)}
    (h : mkFname idx lab ∉ used) :
    resolveName idx lab used = some (mkFname idx lab) := by
  unfold resolveName
  rw [if_neg h]

/-- The save loop never hits the collision retry: each candidate's index
digit-run differs from every name already used, so every figure gets the
plain `mkFname` name, in order, and the resulting names are distinct. -/
theorem saveLoop_spec (labs : List (List Char)) :
    ∀ (idx : Nat) (used : List (List Char)),
      (∀ s ∈ used, ∃ j, j < idx ∧ s.takeWhile isDigitC = fmt2 j) →
      ∃ files, saveLoop labs idx used = some files ∧
        files.length = labs.length ∧
        (∀ i, files[i]? = (labs[i]?).map (fun lab => mkFname (idx + i) lab)) ∧
        files.Nodup := by
  induction labs with
  | nil => exact fun idx used _ => ⟨[], rfl, rfl, fun i => by simp, List.nodup_nil⟩
  | cons lab rest ih =>
    intro idx used hused
    have hnot : mkFname idx lab ∉ used := by
      intro hmem
      obtain ⟨j, hj, hdig⟩ := hused _ hmem
      rw [mkFname_digitRun] at hdig
      exact absurd (fmt2_inj hdig) (by omega)
    have hext : ∀ s ∈ mkFname idx lab :: used,
        ∃ j, j < idx + 1 ∧ s.takeWhile isDigitC = fmt2 j := by
      intro s hs
      rcases List.mem_cons.mp hs with rfl | hmem
      · exact ⟨idx, by omega, mkFname_digitRun idx lab⟩
      · obtain ⟨j, hj, hd⟩ := hused s hmem
        exact ⟨j, by omega, hd⟩
    obtain ⟨files, hsl, hlen, hidx, hnd⟩ := ih (idx + 1) (mkFname idx lab :: used) hext
    refine ⟨mkFname idx lab :: files, ?_, by simp [hlen], ?_, ?_⟩
    · rw [saveLoop, resolveName_fresh hnot]
      show (saveLoop rest (idx + 1) (mkFname idx lab :: used)).map
        (mkFname idx lab :: ·) = some (mkFname idx lab :: files)
      rw [hsl]
      rfl
    · intro i
      cases i with
      | zero => simp
      | succ k =>
        simp only [List.getElem?_cons_succ]
        rw [hidx k]
        have harith : idx + 1 + k = idx + (k + 1) := by omega
        rw [harith]
    · refine List.nodup_cons.mpr ⟨?_, hnd⟩
      intro hmem
      obtain ⟨k, hk⟩ := List.getElem?_of_mem hmem
      have := hidx k
      rw [hk] at this
      cases hrk : rest[k]? with
      | none => rw [hrk] at this; cases this
      | some labk =>
        rw [hrk] at this
        have heq : mkFname idx lab = mkFname (idx + 1 + k) labk := by
          simpa using this
        have hdig := congrArg (List.takeWhile isDigitC) heq
        rw [mkFname_digitRun, mkFname_digitRun] at hdig
        exact absurd (fmt2_inj hdig) (by omega)

theorem insertByNum_perm (f : Fig) (l : List Fig) :
    (insertByNum f l).Perm (f :: l) := by
  induction l with
  | nil => exact List.Perm.refl _
  | cons g rest ih =>
    rw [insertByNum]
    split
    · exact List.Perm.refl _
    · exact (List.Perm.cons g ih).trans (List.Perm.swap f g rest)

theorem sortByNum_perm (l : List Fig) : (sortByNum l).Perm l := by
  induction l with
  | nil => exact List.Perm.refl _
  | cons f rest ih =>
    exact (insertByNum_perm f (sortByNum rest)).trans (List.Perm.cons f ih)

theorem sortByNum_length (l : List Fig) : (sortByNum l).length = l.length :=
  (sortByNum_perm l).length_eq

theorem insertByNum_pairwise {f : Fig} {l : List Fig}
    (h : l.Pairwise fun a b => a.num ≤ b.num) :
    (insertByNum f l).Pairwise fun a b => a.num ≤ b.num := by
  induction l with
  | nil => simp [insertByNum]
  | cons g rest ih =>
    rw [insertByNum]
    rcases List.pairwise_cons.mp h with ⟨hg, hrest⟩
    split
    · rename_i hle
      refine List.pairwise_cons.mpr ⟨?_, h⟩
      intro b hb
      rcases List.mem_cons.mp hb with rfl | hb
      · exact hle
      · exact le_trans hle (hg b hb)
    · rename_i hgt
      refine List.pairwise_cons.mpr ⟨?_, ih hrest⟩
      intro b hb
      have hb2 := (insertByNum_perm f rest).mem_iff.mp hb
      rcases List.mem_cons.mp hb2 with rfl | hb2
      · omega
      · exact hg b hb2

theorem sortByNum_pairwise (l : List Fig) :
    (sortByNum l).Pairwise fun a b => a.num ≤ b.num := by
  induction l with
  | nil => simp [sortByNum]
  | cons f rest ih => exact insertByNum_pairwise ih

/-- The capture stage never fails and emits one file per retained figure. -/
theorem captureFigs_spec (figs : List Fig) (scriptBase : String) (maxFigs : Int) :
    ∃ files, captureFigs figs scriptBase maxFigs = some files ∧
      files.length = min figs.length maxFigs.toNat ∧
      (∀ i, files[i]? = (((sortByNum figs).take maxFigs.toNat)[i]?).map
        (fun f => mkFname (1 + i) (labelFor f scriptBase))) ∧
      files.Nodup := by
  obtain ⟨files, hsl, hlen, hidx, hnd⟩ :=
    saveLoop_spec (((sortByNum figs).take maxFigs.toNat).map
      (fun f => labelFor f scriptBase)) 1 [] (by simp)
  refine ⟨files, hsl, ?_, ?_, hnd⟩
  · rw [hlen, List.length_map, List.length_take, sortByNum_length]
    omega
  · intro i
    rw [hidx i, List.getElem?_map, Option.map_map]
    rfl

/-- Claim C5: for a unit run that returns normally leaving `k` figures and
any `max_figures` value `m ≥ 0`, exactly `min k m` artifact files are
produced, taken from the figures in ascending creation (figure-number)
order with contiguous 1-based indices; with zero figures, no files are
produced, the "no figures" message is reported, and no error is raised. -/
theorem harness_saves_min_files (origCwd unitDir : String) (exec : ExecOutcome)
    (scriptBase : String) (m : Nat) (hok : exec.raised = false) :
    ∃ files,
      (harnessMain origCwd unitDir exec scriptBase (m : Int)).outcome = .ok files ∧
      files.length = min exec.figs.length m ∧
      (∀ i, files[i]? = (((sortByNum exec.figs).take m)[i]?).map
        (fun f => mkFname (1 + i) (labelFor f scriptBase))) ∧
      (sortByNum exec.figs).Pairwise (fun a b => a.num ≤ b.num) ∧
      (exec.figs = [] → files = [] ∧
        (harnessMain origCwd unitDir exec scriptBase (m : Int)).noFigsReported = true) := by
  have hm : ((m : Int)).toNat = m := Int.toNat_natCast m
  by_cases hfig : exec.figs = []
  · refine ⟨[], ?_, by simp [hfig], ?_, ?_, fun _ => ⟨rfl, ?_⟩⟩
    · simp [harnessMain, hok, hfig]
    · intro i
      simp [hfig, sortByNum]
    · simp [hfig, sortByNum]
    · simp [harnessMain, hok, hfig]
  · obtain ⟨files, hcf, hlen, hidx, hnd⟩ := captureFigs_spec exec.figs scriptBase (m : Int)
    refine ⟨files, ?_, by rw [hlen, hm], ?_, sortByNum_pairwise _, fun he => absurd he hfig⟩
    · simp [harnessMain, hok, hfig, hcf]
    · intro i
      rw [hidx i, hm]

theorem harness_saves_min_files_witness :
    ∃ files,
      (harnessMain "cwd" "unit"
          ⟨false, [⟨3, none, []⟩, ⟨1, some "A", []⟩, ⟨2, none, ["B"]⟩]⟩
          "script" ((2 : Nat) : Int)).outcome = .ok files ∧
      files.length = min 3 2 ∧ files[0]? = some (mkFname 1 ['a']) := by
  obtain ⟨files, h1, h2, h3, -, -⟩ := harness_saves_min_files "cwd" "unit"
    ⟨false, [⟨3, none, []⟩, ⟨1, some "A", []⟩, ⟨2, none, ["B"]⟩]⟩ "script" 2 rfl
  exact ⟨files, h1, h2, (h3 0).trans rfl⟩

/-- Claim C6: within one harness call the generated filenames are pairwise
distinct (no artifact overwrites another), and each has the shape
`{index:02d}` plus an optional `-label` plus `.png`; the `-dup` retry
branch exists in the loop but distinct indices already keep names unique —
in particular two figures with identical derived labels get distinct
names. -/
theorem harness_filenames_distinct (origCwd unitDir : String) (exec : ExecOutcome)
    (scriptBase : String) (maxFigs : Int) (files : List (List Char))
    (hok : (harnessMain origCwd unitDir exec scriptBase maxFigs).outcome = .ok files) :
    files.Nodup ∧ ∀ i s, files[i]? = some s → ∃ lab, s = mkFname (i + 1) lab := by
  unfold harnessMain at hok
  rw [if_neg] at hok
  · by_cases hfig : exec.figs.isEmpty
    · rw [if_pos hfig] at hok
      cases hok
      exact ⟨List.nodup_nil, fun i s hs => by simp at hs⟩
    · rw [if_neg hfig] at hok
      obtain ⟨files2, hcf, hlen, hidx, hnd⟩ :=
        captureFigs_spec exec.figs scriptBase maxFigs
      rw [hcf] at hok
      cases hok
      refine ⟨hnd, fun i s hs => ?_⟩
      have := hidx i
      rw [hs] at this
      cases hg : ((sortByNum exec.figs).take maxFigs.toNat)[i]? with
      | none => rw [hg] at this; cases this
      | some f =>
        rw [hg] at this
        refine ⟨labelFor f scriptBase, ?_⟩
        have harith : 1 + i = i + 1 := by omega
        rw [← harith]
        simpa using this
  · intro hr
    rw [if_pos hr] at hok
    cases hok

theorem harness_filenames_distinct_witness :
    [mkFname 1 ['x'], mkFname 2 ['x']].Nodup ∧
    (∃ lab, mkFname 1 ['x'] = mkFname (0 + 1) lab) := by
  obtain ⟨hnd, hshape⟩ := harness_filenames_distinct "cwd" "unit"
    ⟨false, [⟨1, some "X", []⟩, ⟨2, some "X", []⟩]⟩ "script" 2
    [mkFname 1 ['x'], mkFname 2 ['x']] rfl
  exact ⟨hnd, hshape 0 (mkFname 1 ['x']) rfl⟩

/-- Claim C7 as stated is false: when the unit raises, the working
directory is restored by the `finally`, but the exception then propagates
out of `main` before the figure-enumeration code runs, so the figure
registered at raise time is never persisted — the outcome is the error,
not a list of artifact files. -/
theorem harness_raise_counterexample :
    (harnessMain "home" "unit" ⟨true, [⟨1, some "T", []⟩]⟩ "script" 2).outcome =
      .error () ∧
    (harnessMain "home" "unit" ⟨true, [⟨1, some "T", []⟩]⟩ "script" 2).finalCwd =
      "home" := ⟨rfl, rfl⟩

/-- Claim C7, amended: the previous working directory is restored
unconditionally (on every execution path), but a raising unit execution
propagates its exception and persists nothing: no canvases are enumerated
or saved. -/
theorem harness_raise_amended (origCwd unitDir : String) (exec : ExecOutcome)
    (scriptBase : String) (maxFigs : Int) :
    (harnessMain origCwd unitDir exec scriptBase maxFigs).finalCwd = origCwd ∧
    (exec.raised = true →
      (harnessMain origCwd unitDir exec scriptBase maxFigs).outcome = .error ()) := by
  constructor
  · unfold harnessMain
    split
    · rfl
    · split
      · rfl
      · split <;> rfl
  · intro hr
    simp [harnessMain, hr]

theorem harness_raise_amended_witness :
    (harnessMain "a" "b" ⟨true, []⟩ "s" 2).finalCwd = "a" ∧
    (harnessMain "a" "b" ⟨true, []⟩ "s" 2).outcome = .error () :=
  ⟨(harness_raise_amended "a" "b" ⟨true, []⟩ "s" 2).1,
   (harness_raise_amended "a" "b" ⟨true, []⟩ "s" 2).2 rfl⟩

/-! ## Reorganizer lemmas and claim C8 -/

/-- Plain structural induction for `DirList` with the sibling tree held
abstract (the mutual recursor is inconvenient for the list-shaped lemmas
below). -/
@[induction_eliminator]
theorem DirList.inductionOn {motive : DirList → Prop} (nil : motive .nil)
    (cons : ∀ (n : String) (t : FTree) (rest : DirList), motive rest →
      motive (.cons n t rest)) : ∀ ds, motive ds
  | .nil => nil
  | .cons n t rest => cons n t rest (DirList.inductionOn nil cons rest)

theorem lookup_mem {ds : DirList} {d : String} {t : FTree}
    (h : ds.lookup d = some t) : d ∈ ds.names := by
  induction ds with
  | nil => cases h
  | cons n t2 rest ih =>
    rw [DirList.lookup] at h
    rw [DirList.names]
    split at h
    · rename_i he; exact he ▸ List.mem_cons_self n _
    · exact List.mem_cons_of_mem n (ih h)

theorem mem_lookup_isSome {ds : DirList} {d : String} (h : d ∈ ds.names) :
    (ds.lookup d).isSome = true := by
  induction ds with
  | nil => simp [DirList.names] at h
  | cons n t rest ih =>
    rw [DirList.lookup]
    split
    · rfl
    · rename_i hne
      rw [DirList.names] at h
      rcases List.mem_cons.mp h with rfl | hm
      · exact absurd rfl hne
      · exact ih hm

theorem names_replace (ds : DirList) (d : String) (t : FTree) :
    (ds.replace d t).names = ds.names := by
  induction ds with
  | nil => rfl
  | cons n t2 rest ih =>
    rw [DirList.replace]
    split
    · rfl
    · rw [DirList.names, DirList.names, ih]

theorem names_push (ds : DirList) (n : String) (t : FTree) :
    (ds.push n t).names = ds.names ++ [n] := by
  induction ds with
  | nil => rfl
  | cons m s rest ih => rw [DirList.push, DirList.names, DirList.names, ih]; rfl

theorem names_remove_sublist (ds : DirList) (d : String) :
    (ds.remove d).names.Sublist ds.names := by
  induction ds with
  | nil => exact List.Sublist.refl _
  | cons n t rest ih =>
    rw [DirList.remove]
    split
    · exact (List.sublist_cons_self n _)
    · exact List.Sublist.cons₂ n ih

theorem mem_names_rename {ds : DirList} {d n2 m : String}
    (h : m ∈ (ds.rename d n2).names) : m = n2 ∨ (m ∈ ds.names ∧ m ≠ d) ∨ m = d := by
  induction ds with
  | nil => simp [DirList.rename, DirList.names] at h
  | cons n t rest ih =>
    rw [DirList.rename] at h
    split at h
    · rw [DirList.names] at h
      rcases List.mem_cons.mp h with rfl | hm
      · exact Or.inl rfl
      · by_cases hmd : m = d
        · exact Or.inr (Or.inr hmd)
        · exact Or.inr (Or.inl ⟨List.mem_cons_of_mem _ hm, hmd⟩)
    · rw [DirList.names] at h
      rcases List.mem_cons.mp h with rfl | hm
      · by_cases hmd : m = d
        · exact Or.inr (Or.inr hmd)
        · exact Or.inr (Or.inl ⟨List.mem_cons_self _ _, hmd⟩)
      · rcases ih hm with h1 | ⟨h2, h3⟩ | h4
        · exact Or.inl h1
        · exact Or.inr (Or.inl ⟨List.mem_cons_of_mem _ h2, h3⟩)
        · exact Or.inr (Or.inr h4)

theorem nodup_names_rename {ds : DirList} {d n2 : String}
    (hnd : ds.names.Nodup) (hn2 : n2 ∉ ds.names) :
    (ds.rename d n2).names.Nodup := by
  induction ds with
  | nil => exact List.nodup_nil
  | cons n t rest ih =>
    rw [DirList.names] at hnd hn2
    rcases List.nodup_cons.mp hnd with ⟨hnin, hrest⟩
    rw [DirList.rename]
    split
    · rw [DirList.names]
      refine List.nodup_cons.mpr ⟨fun hc => hn2 (List.mem_cons_of_mem _ hc), hrest⟩
    · rw [DirList.names]
      refine List.nodup_cons.mpr ⟨?_, ih hrest (fun hc => hn2 (List.mem_cons_of_mem _ hc))⟩
      intro hc
      rcases mem_names_rename hc with rfl | ⟨h2, _⟩ | rfl
      · exact hn2 (List.mem_cons_self _ _)
      · exact hnin h2
      · rename_i hne; exact hne rfl

theorem slug_slug_str {s : String} (h : slug s ≠ "") : slug (slug s) = slug s := by
  have hne : slugL s.data ≠ [] := by
    intro he
    exact h (by simp [slug, he])
  simp only [slug]
  exact congrArg String.mk (slugL_slugL hne)

theorem nesDirs_names {ds : DirList} (h : nesDirs ds = true) :
    ∀ n ∈ ds.names, slug n ≠ "" := by
  induction ds with
  | nil => simp [DirList.names]
  | cons n t rest ih =>
    rw [nesDirs, Bool.and_eq_true, Bool.and_eq_true] at h
    intro m hm
    rcases List.mem_cons.mp hm with rfl | hm2
    · simpa using h.1.1
    · exact ih h.2 m hm2

theorem intSFDirs_lookup {ds : DirList} {d : String} {t : FTree}
    (h : intSFDirs ds = true) (hl : ds.lookup d = some t) :
    slugFixedTree t = true := by
  induction ds with
  | nil => cases hl
  | cons n t2 rest ih =>
    rw [intSFDirs, Bool.and_eq_true] at h
    rw [DirList.lookup] at hl
    split at hl
    · cases hl; exact h.1
    · exact ih h.2 hl

theorem intSFDirs_replace {ds : DirList} {d : String} {t : FTree}
    (h : intSFDirs ds = true) (ht : slugFixedTree t = true) :
    intSFDirs (ds.replace d t) = true := by
  induction ds with
  | nil => rfl
  | cons n t2 rest ih =>
    rw [intSFDirs, Bool.and_eq_true] at h
    rw [DirList.replace]
    split
    · rw [intSFDirs, Bool.and_eq_true]; exact ⟨ht, h.2⟩
    · rw [intSFDirs, Bool.and_eq_true]; exact ⟨h.1, ih h.2⟩

theorem intSFDirs_push {ds : DirList} {n : String} {t : FTree}
    (h : intSFDirs ds = true) (ht : slugFixedTree t = true) :
    intSFDirs (ds.push n t) = true := by
  induction ds with
  | nil => rw [DirList.push, intSFDirs, Bool.and_eq_true]; exact ⟨ht, rfl⟩
  | cons m s rest ih =>
    rw [intSFDirs, Bool.and_eq_true] at h
    rw [DirList.push, intSFDirs, Bool.and_eq_true]
    exact ⟨h.1, ih h.2⟩

theorem intSFDirs_remove {ds : DirList} {d : String}
    (h : intSFDirs ds = true) : intSFDirs (ds.remove d) = true := by
  induction ds with
  | nil => rfl
  | cons n t rest ih =>
    rw [intSFDirs, Bool.and_eq_true] at h
    rw [DirList.remove]
    split
    · exact h.2
    · rw [intSFDirs, Bool.and_eq_true]; exact ⟨h.1, ih h.2⟩

theorem intSFDirs_rename {ds : DirList} {d n2 : String}
    (h : intSFDirs ds = true) : intSFDirs (ds.rename d n2) = true := by
  induction ds with
  | nil => rfl
  | cons n t rest ih =>
    rw [intSFDirs, Bool.and_eq_true] at h
    rw [DirList.rename]
    split
    · rw [intSFDirs, Bool.and_eq_true]; exact ⟨h.1, h.2⟩
    · rw [intSFDirs, Bool.and_eq_true]; exact ⟨h.1, ih h.2⟩

theorem slugFixedDirs_split {ds : DirList} (h : slugFixedDirs ds = true) :
    intSFDirs ds = true ∧ ∀ n ∈ ds.names, slug n = n := by
  induction ds with
  | nil => exact ⟨rfl, by simp [DirList.names]⟩
  | cons n t rest ih =>
    rw [slugFixedDirs, Bool.and_eq_true, Bool.and_eq_true] at h
    obtain ⟨hr1, hr2⟩ := ih h.2
    refine ⟨?_, ?_⟩
    · rw [intSFDirs, Bool.and_eq_true]; exact ⟨h.1.2, hr1⟩
    · intro m hm
      rcases List.mem_cons.mp hm with rfl | hm2
      · simpa using h.1.1
      · exact hr2 m hm2

theorem slugFixedDirs_assemble {ds : DirList} (h1 : intSFDirs ds = true)
    (h2 : ∀ n ∈ ds.names, slug n = n) : slugFixedDirs ds = true := by
  induction ds with
  | nil => rfl
  | cons n t rest ih =>
    rw [intSFDirs, Bool.and_eq_true] at h1
    rw [slugFixedDirs, Bool.and_eq_true, Bool.and_eq_true]
    refine ⟨⟨?_, h1.1⟩, ih h1.2 fun m hm => h2 m (List.mem_cons_of_mem _ hm)⟩
    simpa using h2 n (List.mem_cons_self _ _)

theorem slugFixedDirs_replace {ds : DirList} {d : String} {t : FTree}
    (h : slugFixedDirs ds = true) (ht : slugFixedTree t = true) :
    slugFixedDirs (ds.replace d t) = true := by
  obtain ⟨h1, h2⟩ := slugFixedDirs_split h
  refine slugFixedDirs_assemble (intSFDirs_replace h1 ht) ?_
  rw [names_replace]
  exact h2

theorem slugFixedDirs_push {ds : DirList} {n : String} {t : FTree}
    (h : slugFixedDirs ds = true) (hn : slug n = n) (ht : slugFixedTree t = true) :
    slugFixedDirs (ds.push n t) = true := by
  obtain ⟨h1, h2⟩ := slugFixedDirs_split h
  refine slugFixedDirs_assemble (intSFDirs_push h1 ht) ?_
  rw [names_push]
  intro m hm
  rcases List.mem_append.mp hm with hm2 | hm2
  · exact h2 m hm2
  · simpa using (by simpa using hm2 : m = n) ▸ hn

theorem slugFixedDirs_lookup {ds : DirList} {d : String} {t : FTree}
    (h : slugFixedDirs ds = true) (hl : ds.lookup d = some t) :
    slugFixedTree t = true :=
  intSFDirs_lookup (slugFixedDirs_split h).1 hl

theorem names_remove_of_nodup {ds : DirList} {d m : String}
    (hnd : ds.names.Nodup) (hm : m ∈ (ds.remove d).names) :
    m ∈ ds.names ∧ m ≠ d := by
  induction ds with
  | nil => simp [DirList.remove, DirList.names] at hm
  | cons n t rest ih =>
    rw [DirList.names] at hnd
    rcases List.nodup_cons.mp hnd with ⟨hnin, hrest⟩
    rw [DirList.remove] at hm
    split at hm
    · rename_i he
      subst he
      refine ⟨List.mem_cons_of_mem _ hm, fun he2 => hnin (he2 ▸ hm)⟩
    · rename_i hne
      rw [DirList.names] at hm
      rcases List.mem_cons.mp hm with rfl | hm2
      · exact ⟨List.mem_cons_self _ _, fun he2 => hne he2⟩
      · obtain ⟨h1, h2⟩ := ih hrest hm2
        exact ⟨List.mem_cons_of_mem _ h1, h2⟩

theorem moveFileIntoDir_sf {f : String} {tgt tgt2 : FTree}
    (h : moveFileIntoDir f tgt = some tgt2) (hsf : slugFixedTree tgt = true) :
    slugFixedTree tgt2 = true := by
  cases tgt with
  | node dt ft =>
    rw [moveFileIntoDir] at h
    rw [slugFixedTree] at hsf
    split at h
    · rename_i dd fdd hl
      split at h
      · cases h
      · cases h
        rw [slugFixedTree]
        refine slugFixedDirs_replace hsf ?_
        have := slugFixedDirs_lookup hsf hl
        rw [slugFixedTree] at this ⊢
        exact this
    · cases h
      rw [slugFixedTree]
      exact hsf

theorem moveFilesInto_sf (fl : List String) (tgt : FTree)
    (hsf : slugFixedTree tgt = true) :
    slugFixedTree (moveFilesInto fl tgt).1 = true := by
  induction fl generalizing tgt with
  | nil => exact hsf
  | cons f rest ih =>
    rw [moveFilesInto]
    cases hm : moveFileIntoDir f tgt with
    | some tgt2 => exact ih tgt2 (moveFileIntoDir_sf hm hsf)
    | none => exact hsf

theorem moveDirIntoDir_sf {m : String} {s : FTree} {tgt tgt2 : FTree}
    (h : moveDirIntoDir m s tgt = some tgt2) (hm : slug m = m)
    (hs : slugFixedTree s = true) (hsf : slugFixedTree tgt = true) :
    slugFixedTree tgt2 = true := by
  cases tgt with
  | node dt ft =>
    rw [moveDirIntoDir] at h
    rw [slugFixedTree] at hsf
    split at h
    · cases h
    · split at h
      · rename_i dd fdd hl
        split at h
        · cases h
        · cases h
          rw [slugFixedTree]
          refine slugFixedDirs_replace hsf ?_
          have hin := slugFixedDirs_lookup hsf hl
          rw [slugFixedTree] at hin ⊢
          exact slugFixedDirs_push hin hm hs
      · cases h
        rw [slugFixedTree]
        exact slugFixedDirs_push hsf hm hs

theorem moveDirsInto_sf (ds2 : DirList) (tgt : FTree)
    (hds : slugFixedDirs ds2 = true) (hsf : slugFixedTree tgt = true) :
    slugFixedTree (moveDirsInto ds2 tgt).1 = true := by
  induction ds2 generalizing tgt with
  | nil => exact hsf
  | cons m s rest ih =>
    rw [slugFixedDirs, Bool.and_eq_true, Bool.and_eq_true] at hds
    rw [moveDirsInto]
    cases hm : moveDirIntoDir m s tgt with
    | some tgt2 =>
      exact ih tgt2 hds.2 (moveDirIntoDir_sf hm (by simpa using hds.1.1) hds.1.2 hsf)
    | none => exact hsf

theorem mergeIntoDir_spec {d n : String} {cur : DirList} {fs : List String}
    (hsf : intSFDirs cur = true) (hnd : cur.names.Nodup)
    (hld0 : (cur.lookup d).isSome = true) (hln0 : (cur.lookup n).isSome = true)
    (hcl : (mergeIntoDir d n cur fs).2.2 = true) :
    intSFDirs (mergeIntoDir d n cur fs).1 = true ∧
    (∀ m ∈ (mergeIntoDir d n cur fs).1.names, m ∈ cur.names ∧ m ≠ d) ∧
    (mergeIntoDir d n cur fs).1.names.Nodup ∧
    (mergeIntoDir d n cur fs).2.1 = fs := by
  rw [mergeIntoDir] at hcl ⊢
  split at hcl
  · rename_i ds2 fs2 tgt hld hln
    have hsrc : slugFixedTree (FTree.node ds2 fs2) = true := intSFDirs_lookup hsf hld
    have htgt : slugFixedTree tgt = true := intSFDirs_lookup hsf hln
    have hmf : slugFixedTree (moveFilesInto fs2 tgt).1 = true :=
      moveFilesInto_sf fs2 tgt htgt
    by_cases hokF : (moveFilesInto fs2 tgt).2.2 = true
    · rw [if_pos hokF] at hcl ⊢
      have hmd : slugFixedTree (moveDirsInto ds2 (moveFilesInto fs2 tgt).1).1 = true := by
        refine moveDirsInto_sf ds2 _ ?_ hmf
        rw [slugFixedTree] at hsrc
        exact hsrc
      by_cases hokD : (moveDirsInto ds2 (moveFilesInto fs2 tgt).1).2.2 = true
      · rw [if_pos hokD] at hcl ⊢
        have hrepl : intSFDirs (cur.replace n (moveDirsInto ds2 (moveFilesInto fs2 tgt).1).1) = true :=
          intSFDirs_replace hsf hmd
        refine ⟨intSFDirs_remove hrepl, ?_, ?_, rfl⟩
        · intro m hm
          have hnd2 : (cur.replace n (moveDirsInto ds2 (moveFilesInto fs2 tgt).1).1).names.Nodup := by
            rw [names_replace]; exact hnd
          obtain ⟨h1, h2⟩ := names_remove_of_nodup hnd2 hm
          rw [names_replace] at h1
          exact ⟨h1, h2⟩
        · refine List.Nodup.sublist (names_remove_sublist _ _) ?_
          rw [names_replace]
          exact hnd
      · rw [if_neg hokD] at hcl
        simp at hcl
    · rw [if_neg hokF] at hcl
      simp at hcl
  · rename_i hfall
    obtain ⟨td, htd⟩ := Option.isSome_iff_exists.mp hld0
    obtain ⟨tn, htn⟩ := Option.isSome_iff_exists.mp hln0
    cases td with
    | node ds2 fs2 => exact absurd (hfall ds2 fs2 tn htd htn) (fun h => h)

theorem mem_names_rename_nodup {ds : DirList} {d n2 m : String}
    (hnd : ds.names.Nodup) (hd : d ∈ ds.names)
    (hm : m ∈ (ds.rename d n2).names) : m = n2 ∨ (m ∈ ds.names ∧ m ≠ d) := by
  induction ds with
  | nil => simp [DirList.names] at hd
  | cons n t rest ih =>
    rw [DirList.names] at hnd hd
    rcases List.nodup_cons.mp hnd with ⟨hnin, hrest⟩
    rw [DirList.rename] at hm
    split at hm
    · rename_i he
      subst he
      rw [DirList.names] at hm
      rcases List.mem_cons.mp hm with rfl | hm2
      · exact Or.inl rfl
      · exact Or.inr ⟨List.mem_cons_of_mem _ hm2, fun he2 => hnin (he2 ▸ hm2)⟩
    · rename_i hne
      rw [DirList.names] at hm
      rcases List.mem_cons.mp hm with rfl | hm2
      · exact Or.inr ⟨List.mem_cons_self _ _, fun he2 => hne he2⟩
      · have hd2 : d ∈ rest.names := by
          rcases List.mem_cons.mp hd with rfl | h2
          · exact absurd rfl hne
          · exact h2
        rcases ih hrest hd2 hm2 with h1 | ⟨h2, h3⟩
        · exact Or.inl h1
        · exact Or.inr ⟨List.mem_cons_of_mem _ h2, h3⟩

/-- One pass-B step preserves the level invariants: names keep nonempty
slugs, stay duplicate-free, interiors stay normalized, every surviving
name is either already a slug or an untouched old name other than `d`,
and the level's files are untouched. -/
theorem pbStep_invariant {d : String} {cur : DirList} {fs : List String}
    (hnes : ∀ n ∈ cur.names, slug n ≠ "")
    (hnd : cur.names.Nodup)
    (hsf : intSFDirs cur = true)
    (hcl : (pbStep d cur fs).2.2 = true) :
    (∀ n ∈ (pbStep d cur fs).1.names, slug n ≠ "") ∧
    (pbStep d cur fs).1.names.Nodup ∧
    intSFDirs (pbStep d cur fs).1 = true ∧
    (∀ n ∈ (pbStep d cur fs).1.names, slug n = n ∨ (n ≠ d ∧ n ∈ cur.names)) ∧
    (pbStep d cur fs).2.1 = fs := by
  rw [pbStep] at hcl ⊢
  cases hld : cur.lookup d with
  | none =>
    simp only [hld] at hcl ⊢
    have hdn : d ∉ cur.names := fun hc => by
      have hs2 := mem_lookup_isSome hc
      rw [hld] at hs2
      cases hs2
    exact ⟨hnes, hnd, hsf, fun n hn => Or.inr ⟨fun he => hdn (he ▸ hn), hn⟩, by trivial⟩
  | some t =>
    simp only [hld] at hcl ⊢
    have hdm : d ∈ cur.names := lookup_mem hld
    by_cases heq : slug d = d
    · rw [if_pos heq] at hcl ⊢
      refine ⟨hnes, hnd, hsf, fun n hn => ?_, rfl⟩
      by_cases hnd2 : n = d
      · exact Or.inl (hnd2 ▸ heq)
      · exact Or.inr ⟨hnd2, hn⟩
    · rw [if_neg heq] at hcl ⊢
      have hdne : slug d ≠ "" := hnes d hdm
      rw [if_neg hdne] at hcl ⊢
      by_cases hsome : (cur.lookup (slug d)).isSome = true
      · rw [if_pos hsome] at hcl ⊢
        obtain ⟨h1, h2, h3, h4⟩ := mergeIntoDir_spec hsf hnd
          (by rw [hld]; rfl) hsome hcl
        refine ⟨fun n hn => hnes n (h2 n hn).1, h3, h1,
          fun n hn => Or.inr ⟨(h2 n hn).2, (h2 n hn).1⟩, h4⟩
      · rw [if_neg hsome] at hcl ⊢
        by_cases hfs : slug d ∈ fs
        · rw [if_pos hfs] at hcl ⊢
          cases t with
          | node ds2 fs2 =>
            simp only [mergeOntoFile, hld] at hcl ⊢
            cases ds2 with
            | nil =>
              cases fs2 with
              | nil =>
                refine ⟨?_, ?_, intSFDirs_remove hsf, ?_, rfl⟩
                · intro n hn
                  exact hnes n (names_remove_of_nodup hnd hn).1
                · exact List.Nodup.sublist (names_remove_sublist _ _) hnd
                · intro n hn
                  obtain ⟨h1, h2⟩ := names_remove_of_nodup hnd hn
                  exact Or.inr ⟨h2, h1⟩
              | cons f fr => simp at hcl
            | cons m s rest => simp at hcl
        · rw [if_neg hfs] at hcl ⊢
          have hnot : slug d ∉ cur.names := by
            intro hc
            exact absurd (mem_lookup_isSome hc) hsome
          refine ⟨?_, nodup_names_rename hnd hnot, intSFDirs_rename hsf, ?_, rfl⟩
          · intro n hn
            rcases mem_names_rename_nodup hnd hdm hn with rfl | ⟨h1, _⟩
            · rw [slug_slug_str hdne]; exact hdne
            · exact hnes n h1
          · intro n hn
            rcases mem_names_rename_nodup hnd hdm hn with rfl | ⟨h1, h2⟩
            · exact Or.inl (slug_slug_str hdne)
            · exact Or.inr ⟨h2, h1⟩

theorem pbSteps_invariant (rem : List String) :
    ∀ (cur : DirList) (fs : List String),
      (∀ n ∈ cur.names, slug n ≠ "") → cur.names.Nodup → intSFDirs cur = true →
      (∀ n ∈ cur.names, slug n = n ∨ n ∈ rem) →
      (pbSteps rem cur fs).2.2 = true →
      slugFixedDirs (pbSteps rem cur fs).1 = true ∧
        (pbSteps rem cur fs).2.1 = fs := by
  induction rem with
  | nil =>
    intro cur fs hnes hnd hsf hrem _
    refine ⟨slugFixedDirs_assemble hsf fun n hn => ?_, rfl⟩
    rcases hrem n hn with h | h
    · exact h
    · simp at h
  | cons d rest ih =>
    intro cur fs hnes hnd hsf hrem hcl
    simp only [pbSteps, Bool.and_eq_true] at hcl ⊢
    obtain ⟨hstep, hrest⟩ := hcl
    obtain ⟨h1, h2, h3, h4, h5⟩ := pbStep_invariant hnes hnd hsf hstep
    have hrem2 : ∀ n ∈ (pbStep d cur fs).1.names, slug n = n ∨ n ∈ rest := by
      intro n hn
      rcases h4 n hn with h | ⟨hne, hmem⟩
      · exact Or.inl h
      · rcases hrem n hmem with h | h
        · exact Or.inl h
        · rcases List.mem_cons.mp h with rfl | h
          · exact absurd rfl hne
          · exact Or.inr h
    rw [h5] at hrest ⊢
    exact ih (pbStep d cur fs).1 fs h1 h2 h3 hrem2 hrest

theorem pbDirs_names (ds : DirList) : (pbDirs ds).1.names = ds.names := by
  induction ds with
  | nil => rfl
  | cons n t rest ih =>
    rw [pbDirs]
    simp only [DirList.names]
    rw [ih]

theorem pbDirs_flag {ds : DirList} (h : (pbDirs ds).2 = true) :
    ∀ n t rest, ds = DirList.cons n t rest →
      (pbTree t).2 = true ∧ (pbDirs rest).2 = true := by
  intro n t rest he
  subst he
  rw [pbDirs] at h
  simp only [Bool.and_eq_true] at h
  exact h

mutual
/-- Pass B leaves every directory name slug-fixed, given no empty-slug
names, duplicate-free sibling names, and a clean (skip-free) run. -/
theorem pbTree_slugFixed : ∀ t : FTree, nesTree t = true → nodupTree t = true →
    (pbTree t).2 = true → slugFixedTree (pbTree t).1 = true
  | .node dirs files, hnes, hnd, hcl => by
    rw [nesTree] at hnes
    rw [nodupTree, Bool.and_eq_true] at hnd
    rw [pbTree] at hcl ⊢
    simp only [Bool.and_eq_true] at hcl
    obtain ⟨hp, hs⟩ := hcl
    have hsf1 := pbDirs_intSF dirs hnes hnd.2 hp
    have hnames1 := pbDirs_names dirs
    have hspec := pbSteps_invariant (DirList.names dirs) (pbDirs dirs).1 files
      (by rw [hnames1]; exact nesDirs_names hnes)
      (by rw [hnames1]; simpa using hnd.1)
      hsf1
      (by rw [hnames1]; exact fun n hn => Or.inr hn)
      hs
    rw [slugFixedTree]
    exact hspec.1

/-- Interior normalization by `pbDirs`: each child subtree comes back
fully slug-fixed inside. -/
theorem pbDirs_intSF : ∀ ds : DirList, nesDirs ds = true → nodupDirs ds = true →
    (pbDirs ds).2 = true → intSFDirs (pbDirs ds).1 = true
  | .nil, _, _, _ => rfl
  | .cons n t rest, hnes, hnd, hcl => by
    rw [nesDirs, Bool.and_eq_true, Bool.and_eq_true] at hnes
    rw [nodupDirs, Bool.and_eq_true] at hnd
    rw [pbDirs] at hcl ⊢
    simp only [Bool.and_eq_true] at hcl
    rw [intSFDirs, Bool.and_eq_true]
    exact ⟨pbTree_slugFixed t hnes.1.2 hnd.1 hcl.1,
      pbDirs_intSF rest hnes.2 hnd.2 hcl.2⟩
end

theorem pbStep_id {d : String} {cur : DirList} {fs : List String}
    (h : ∀ n ∈ cur.names, slug n = n) : pbStep d cur fs = (cur, fs, true) := by
  rw [pbStep]
  cases hld : cur.lookup d with
  | none => rfl
  | some t =>
    have hfix : slug d = d := h d (lookup_mem hld)
    simp [hfix]

theorem pbSteps_id (rem : List String) {cur : DirList} {fs : List String}
    (h : ∀ n ∈ cur.names, slug n = n) : pbSteps rem cur fs = (cur, fs, true) := by
  induction rem with
  | nil => rfl
  | cons d rest ih => simp [pbSteps, pbStep_id h, ih]

mutual
/-- Pass B is the identity (and clean) on a tree whose directory names are
all already slugs. -/
theorem pbTree_id : ∀ t : FTree, slugFixedTree t = true → pbTree t = (t, true)
  | .node dirs files, h => by
    rw [slugFixedTree] at h
    obtain ⟨hsf, hnames⟩ := slugFixedDirs_split h
    rw [pbTree, pbDirs_id dirs h]
    simp only []
    rw [pbSteps_id (DirList.names dirs) hnames]
    rfl

/-- Interior pass of pass B is the identity on slug-fixed listings. -/
theorem pbDirs_id : ∀ ds : DirList, slugFixedDirs ds = true → pbDirs ds = (ds, true)
  | .nil, _ => rfl
  | .cons n t rest, h => by
    rw [slugFixedDirs, Bool.and_eq_true, Bool.and_eq_true] at h
    rw [pbDirs, pbTree_id t h.1.2, pbDirs_id rest h.2]
    rfl
end

